import Mathlib

/-!
Shallow embedding of `src/wit_gen.rs` (witness generation core of chiquito):
`StepInstance`, `TraceWitness`, `TraceContext`, `TraceGenerator` and
`FixedGenContext`, together with proofs of the specification's claims.

Rust `HashMap<K, V>` is embedded as an association list (`List (K × V)`)
whose `insert` overwrites the value of an existing key in place and appends
a fresh key at the end; lookups are keyed on decidable equality.  Rust
mutation is embedded as explicit state passing; a `panic!` (or an
out-of-bounds index) is embedded as the `Except.error` branch carrying the
state at the moment of the abort.
-/

namespace WitGen

/-- Modelled from the spec: the external signal-reference type
(`crate::ast::query::Queriable`, not part of the given sources).  The spec
describes it as an opaque, equality-comparable identifier carrying a kind
discriminant.  The constructors are the variants visible in the given
source (`Fixed`, `Halo2FixedQuery`, used by `is_fixed_queriable` and the
tests) together with the remaining non-fixed kinds of the boundary
description; payloads are opaque identifiers. -/
inductive Queriable where
  | internal (id : Nat)
  | forward (id : Nat) (next : Bool)
  | shared (id : Nat) (rot : Int)
  | fixed (id : Nat) (rot : Int)
  | stepTypeNext (id : Nat)
  | halo2AdviceQuery (id : Nat) (rot : Int)
  | halo2FixedQuery (id : Nat) (rot : Int)
deriving DecidableEq, Repr

/-- The kind discriminant of a signal reference: one value per variant
shape, forgetting the payload. -/
inductive QueriableKind where
  | internal
  | forward
  | shared
  | fixed
  | stepTypeNext
  | halo2Advice
  | halo2Fixed
deriving DecidableEq, Repr

/-- Kind discriminant of a `Queriable`. -/
def Queriable.kind : Queriable → QueriableKind
  | .internal _ => .internal
  | .forward _ _ => .forward
  | .shared _ _ => .shared
  | .fixed _ _ => .fixed
  | .stepTypeNext _ => .stepTypeNext
  | .halo2AdviceQuery _ _ => .halo2Advice
  | .halo2FixedQuery _ _ => .halo2Fixed

/-- Lookup in the association-list embedding of `HashMap`. -/
def hmGet {κ α : Type} [DecidableEq κ] : List (κ × α) → κ → Option α
  | [], _ => none
  | (k', v) :: rest, k => if k' = k then some v else hmGet rest k

/-- `HashMap::insert`: overwrite the value of an existing key in place,
append a fresh key at the end. -/
def hmInsert {κ α : Type} [DecidableEq κ] : List (κ × α) → κ → α → List (κ × α)
  | [], k, v => [(k, v)]
  | (k', v') :: rest, k, v =>
      if k' = k then (k, v) :: rest else (k', v') :: hmInsert rest k v

/-- `StepInstance<F>`: one row's assignment record
(`src/wit_gen.rs`, lines 12-16). -/
structure StepInstance (F : Type) where
  step_type_uuid : Nat
  assignments : List (Queriable × F)
deriving DecidableEq, Repr

/-- `StepInstance::new` (`src/wit_gen.rs`, lines 19-24). -/
def StepInstance.new {F : Type} (step_type_uuid : Nat) : StepInstance F :=
  { step_type_uuid := step_type_uuid, assignments := [] }

/-- `StepInstance::assign` (`src/wit_gen.rs`, lines 30-32):
`self.assignments.insert(lhs, rhs)`. -/
def StepInstance.assign {F : Type} (si : StepInstance F) (lhs : Queriable) (rhs : F) :
    StepInstance F :=
  { si with assignments := hmInsert si.assignments lhs rhs }

/-- `TraceWitness<F>` (`src/wit_gen.rs`, lines 37-40). -/
structure TraceWitness (F : Type) where
  step_instances : List (StepInstance F)
deriving DecidableEq, Repr

/-- `usize::checked_ilog10`: `none` on zero, otherwise the floor of the
base-10 logarithm. -/
def checked_ilog10 (n : Nat) : Option Nat :=
  if n = 0 then none else some (Nat.log 10 n)

/-- The zero-padding width computed by `TraceWitness::fmt`
(`src/wit_gen.rs`, lines 60-65):
`assignments.len().checked_ilog10().unwrap_or(0) + 2`. -/
def decimal_width (len : Nat) : Nat :=
  (checked_ilog10 len).getD 0 + 2

/-- The per-row zero-padding widths used on the row indices by the debug
rendering `TraceWitness::fmt` (`src/wit_gen.rs`, lines 42-78): row `i` is
printed zero-padded to `decimal_width` of that row's assignment count. -/
def TraceWitness.rowWidths {F : Type} (w : TraceWitness F) : List Nat :=
  w.step_instances.map (fun si => decimal_width si.assignments.length)

/-- Modelled from the spec: the external step handler
(`crate::frontend::dsl::StepTypeWGHandler`, not part of the given sources).
The spec describes it as an opaque stable id plus a callback that receives
a mutable reference to a freshly created `StepInstance` and the
caller-supplied arguments and may call `assign` any number of times; since
`add` always hands the callback a brand-new instance, the callback's
behaviour is fully captured by the sequence of `assign(lhs, rhs)` calls it
makes as a function of the arguments. -/
structure StepTypeWGHandler (F Args : Type) where
  uuid : Nat
  wg : Args → List (Queriable × F)

/-- The `StepInstance` built by one `add` call: a fresh instance carrying
the handler's uuid, mutated by the callback's sequence of `assign` calls
(`src/wit_gen.rs`, lines 105-107). -/
def StepTypeWGHandler.run {F Args : Type} (step : StepTypeWGHandler F Args) (args : Args) :
    StepInstance F :=
  (step.wg args).foldl (fun si p => si.assign p.1 p.2) (StepInstance.new step.uuid)

/-- `TraceContext<F>` (`src/wit_gen.rs`, lines 80-84). -/
structure TraceContext (F : Type) where
  witness : TraceWitness F
  num_steps : Nat
deriving DecidableEq, Repr

/-- `TraceContext::new` (`src/wit_gen.rs`, lines 87-92). -/
def TraceContext.new {F : Type} (num_steps : Nat) : TraceContext F :=
  { witness := { step_instances := [] }, num_steps := num_steps }

/-- `TraceContext::get_witness` (`src/wit_gen.rs`, lines 94-96). -/
def TraceContext.get_witness {F : Type} (ctx : TraceContext F) : TraceWitness F :=
  ctx.witness

/-- `TraceContext::add` (`src/wit_gen.rs`, lines 100-110): build a fresh
`StepInstance` with the handler's uuid, run the callback on it, push it
onto the witness. -/
def TraceContext.add {F Args : Type} (ctx : TraceContext F)
    (step : StepTypeWGHandler F Args) (args : Args) : TraceContext F :=
  { ctx with
    witness := { step_instances := ctx.witness.step_instances ++ [step.run args] } }

/-- The `while` loop of `TraceContext::padding` (`src/wit_gen.rs`,
lines 118-120), with fuel (each `add` grows the witness by exactly one
row, so `num_steps - len` iterations suffice) and a ghost counter of how
many `add` calls — hence handler and `args_fn` invocations — were made. -/
def paddingGo {F Args : Type} (step : StepTypeWGHandler F Args) (args_fn : Unit → Args) :
    Nat → TraceContext F → TraceContext F × Nat
  | 0, ctx => (ctx, 0)
  | fuel + 1, ctx =>
      if ctx.witness.step_instances.length < ctx.num_steps then
        let r := paddingGo step args_fn fuel (ctx.add step (args_fn ()))
        (r.1, r.2 + 1)
      else
        (ctx, 0)

/-- `TraceContext::padding` (`src/wit_gen.rs`, lines 113-121): while the
witness is shorter than `num_steps`, `add` a row produced by the handler
on a fresh `args_fn()` value. -/
def TraceContext.padding {F Args : Type} (ctx : TraceContext F)
    (step : StepTypeWGHandler F Args) (args_fn : Unit → Args) : TraceContext F :=
  (paddingGo step args_fn (ctx.num_steps - ctx.witness.step_instances.length) ctx).1

/-- Ghost observation: the number of `add` calls (equivalently, handler
callback and `args_fn` invocations) a `padding` call performs. -/
def TraceContext.paddingCalls {F Args : Type} (ctx : TraceContext F)
    (step : StepTypeWGHandler F Args) (args_fn : Unit → Args) : Nat :=
  (paddingGo step args_fn (ctx.num_steps - ctx.witness.step_instances.length) ctx).2

/-- `TraceGenerator<F, TraceArgs>` (`src/wit_gen.rs`, lines 126-129): a
trace function (`Rc<dyn Fn(&mut TraceContext<F>, TraceArgs)>`, embedded as
an explicit state transformer) and a target row count. -/
structure TraceGenerator (F Args : Type) where
  trace : TraceContext F → Args → TraceContext F
  num_steps : Nat

/-- `TraceGenerator::clone` (`src/wit_gen.rs`, lines 131-138):
`Rc::clone` shares the trace function, `num_steps` is copied. -/
def TraceGenerator.clone {F Args : Type} (g : TraceGenerator F Args) : TraceGenerator F Args :=
  { trace := g.trace, num_steps := g.num_steps }

/-- `TraceGenerator::default` (`src/wit_gen.rs`, lines 140-147): a no-op
trace function and zero rows. -/
def TraceGenerator.default (F Args : Type) : TraceGenerator F Args :=
  { trace := fun ctx _ => ctx, num_steps := 0 }

/-- `TraceGenerator::new` (`src/wit_gen.rs`, lines 150-152). -/
def TraceGenerator.new {F Args : Type} (trace : TraceContext F → Args → TraceContext F)
    (num_steps : Nat) : TraceGenerator F Args :=
  { trace := trace, num_steps := num_steps }

/-- `TraceGenerator::generate` (`src/wit_gen.rs`, lines 154-160): run the
trace function on a fresh `TraceContext(num_steps)` and return its
witness. -/
def TraceGenerator.generate {F Args : Type} (g : TraceGenerator F Args) (args : Args) :
    TraceWitness F :=
  (g.trace (TraceContext.new g.num_steps) args).get_witness

/-- `FixedGenContext::is_fixed_queriable` (`src/wit_gen.rs`,
lines 200-202): `matches!(q, Halo2FixedQuery(_, _) | Fixed(_, _))`. -/
def is_fixed_queriable (q : Queriable) : Bool :=
  match q with
  | .halo2FixedQuery _ _ => true
  | .fixed _ _ => true
  | _ => false

/-- `FixedGenContext<F>` (`src/wit_gen.rs`, lines 167-170), with
`FixedAssignment<F> = HashMap<Queriable<F>, Vec<F>>` (line 163). -/
structure FixedGenContext (F : Type) where
  assignments : List (Queriable × List F)
  num_steps : Nat
deriving DecidableEq, Repr

/-- `FixedGenContext::new` (`src/wit_gen.rs`, lines 173-178). -/
def FixedGenContext.new {F : Type} (num_steps : Nat) : FixedGenContext F :=
  { assignments := [], num_steps := num_steps }

/-- `FixedGenContext::assign` (`src/wit_gen.rs`, lines 182-194).  The two
aborts — the `panic!` on a non-fixed signal and the out-of-bounds `Vec`
index — are embedded as `Except.error` carrying the state at the moment of
the abort (in the `get_mut` branch the bounds check of `assignments[offset]
= rhs` fires before the vector is written, so no mutation has happened). -/
def FixedGenContext.assign {F : Type} [Zero F] (ctx : FixedGenContext F) (offset : Nat)
    (lhs : Queriable) (rhs : F) : Except (FixedGenContext F) (FixedGenContext F) :=
  if ¬ is_fixed_queriable lhs then
    .error ctx
  else
    match hmGet ctx.assignments lhs with
    | some assignments =>
        if offset < assignments.length then
          .ok { ctx with
                assignments := hmInsert ctx.assignments lhs (assignments.set offset rhs) }
        else
          .error ctx
    | none =>
        let assignments := List.replicate ctx.num_steps (0 : F)
        if offset < assignments.length then
          .ok { ctx with
                assignments := hmInsert ctx.assignments lhs (assignments.set offset rhs) }
        else
          .error ctx

/-- `FixedGenContext::get_assignments` (`src/wit_gen.rs`, lines 196-198). -/
def FixedGenContext.get_assignments {F : Type} (ctx : FixedGenContext F) :
    List (Queriable × List F) :=
  ctx.assignments

/-- Run a sequence of `FixedGenContext::assign` calls, stopping at the
first abort. -/
def runAssigns {F : Type} [Zero F] (ctx : FixedGenContext F) :
    List (Nat × Queriable × F) → Except (FixedGenContext F) (FixedGenContext F)
  | [] => .ok ctx
  | (offset, lhs, rhs) :: rest =>
      match ctx.assign offset lhs rhs with
      | .ok ctx' => runAssigns ctx' rest
      | .error e => .error e

/-- The value of the last `assign(offset, q, _)` call in `ops` for the
given key and offset, if any. -/
def lastAssigned {F : Type} (ops : List (Nat × Queriable × F)) (q : Queriable) (o : Nat) :
    Option F :=
  ops.foldl (fun acc op => if op.2.1 = q ∧ op.1 = o then some op.2.2 else acc) none

/-- Whether some call in `ops` targets key `q`. -/
def touched {F : Type} (ops : List (Nat × Queriable × F)) (q : Queriable) : Bool :=
  ops.any (fun op => decide (op.2.1 = q))

/-! ### Helper lemmas -/

theorem hmGet_hmInsert_self {κ α : Type} [DecidableEq κ] (m : List (κ × α)) (k : κ) (v : α) :
    hmGet (hmInsert m k v) k = some v := by
  induction m with
  | nil => simp [hmInsert, hmGet]
  | cons p rest ih =>
      by_cases h : p.1 = k
      · simp [hmInsert, hmGet, h]
      · simp [hmInsert, hmGet, h, ih]

theorem hmGet_hmInsert_ne {κ α : Type} [DecidableEq κ] (m : List (κ × α)) (k k' : κ) (v : α)
    (h : k ≠ k') : hmGet (hmInsert m k v) k' = hmGet m k' := by
  induction m with
  | nil => simp [hmInsert, hmGet, h]
  | cons p rest ih =>
      by_cases hp : p.1 = k
      · simp [hmInsert, hmGet, hp, h]
      · simp [hmInsert, hmGet, hp, ih]

theorem hmInsert_hmInsert_self {κ α : Type} [DecidableEq κ] (m : List (κ × α)) (k : κ)
    (v1 v2 : α) : hmInsert (hmInsert m k v1) k v2 = hmInsert m k v2 := by
  induction m with
  | nil => simp [hmInsert]
  | cons p rest ih =>
      by_cases hp : p.1 = k
      · simp [hmInsert, hp]
      · simp [hmInsert, hp, ih]

theorem mem_of_hmGet_eq_some {κ α : Type} [DecidableEq κ] (m : List (κ × α)) (k : κ) (v : α)
    (h : hmGet m k = some v) : (k, v) ∈ m := by
  induction m with
  | nil => simp [hmGet] at h
  | cons p rest ih =>
      by_cases hp : p.1 = k
      · simp [hmGet, hp] at h
        subst h
        have hpk : p = (k, p.2) := by
          cases p
          simp only at hp
          simp [hp]
        rw [← hpk]
        exact List.mem_cons_self _ _
      · simp [hmGet, hp] at h
        exact List.mem_cons_of_mem _ (ih h)

theorem StepInstance.run_step_type_uuid {F Args : Type} (step : StepTypeWGHandler F Args)
    (args : Args) : (step.run args).step_type_uuid = step.uuid := by
  have key : ∀ (l : List (Queriable × F)) (si : StepInstance F),
      (l.foldl (fun si p => si.assign p.1 p.2) si).step_type_uuid = si.step_type_uuid := by
    intro l
    induction l with
    | nil => intro si; rfl
    | cons p rest ih => intro si; simpa [StepInstance.assign] using ih (si.assign p.1 p.2)
  exact key (step.wg args) (StepInstance.new step.uuid)

theorem paddingGo_spec {F Args : Type} (step : StepTypeWGHandler F Args)
    (args_fn : Unit → Args) :
    ∀ (fuel : Nat) (ctx : TraceContext F),
      ctx.witness.step_instances.length + fuel ≤ ctx.num_steps →
      paddingGo step args_fn fuel ctx =
        ({ witness := { step_instances := ctx.witness.step_instances ++
              List.replicate fuel (step.run (args_fn ())) },
           num_steps := ctx.num_steps }, fuel) := by
  intro fuel
  induction fuel with
  | zero => intro ctx _; simp [paddingGo]
  | succ n ih =>
      intro ctx h
      have hlt : ctx.witness.step_instances.length < ctx.num_steps := by omega
      have h' : (ctx.add step (args_fn ())).witness.step_instances.length + n ≤
          (ctx.add step (args_fn ())).num_steps := by
        simp [TraceContext.add]
        omega
      simp only [paddingGo, hlt, if_pos, ih (ctx.add step (args_fn ())) h']
      simp [TraceContext.add, List.replicate_succ]

/-! ### Claim theorems -/

/-- C1: for every TraceContext in which explicit `add` calls have produced
`k < num_steps` rows, `padding` with any step handler and args thunk
yields a witness of length exactly `num_steps` whose first `k`
StepInstances are exactly the rows present before the call, unmodified and
in their original order, as a prefix. -/
theorem padding_fills_to_target {F Args : Type} (ctx : TraceContext F)
    (step : StepTypeWGHandler F Args) (args_fn : Unit → Args)
    (h : ctx.witness.step_instances.length < ctx.num_steps) :
    (ctx.padding step args_fn).witness.step_instances.length = ctx.num_steps ∧
    (ctx.padding step args_fn).witness.step_instances.take
        ctx.witness.step_instances.length = ctx.witness.step_instances := by
  have hfuel : ctx.witness.step_instances.length +
      (ctx.num_steps - ctx.witness.step_instances.length) ≤ ctx.num_steps := by omega
  have hgo := paddingGo_spec step args_fn
      (ctx.num_steps - ctx.witness.step_instances.length) ctx hfuel
  constructor
  · simp [TraceContext.padding, hgo]
    omega
  · simp [TraceContext.padding, hgo, List.take_left]

/-- Witness for C1 at a concrete input: a context with target row count 3
holding one row. -/
theorem padding_fills_to_target_witness :
    (((TraceContext.new 3).add ⟨7, fun _ => [(Queriable.fixed 0 0, (1 : Int))]⟩
        ()).witness.step_instances.length <
      ((TraceContext.new 3).add ⟨7, fun _ => [(Queriable.fixed 0 0, (1 : Int))]⟩
        ()).num_steps) ∧
    ((((TraceContext.new 3).add ⟨7, fun _ => [(Queriable.fixed 0 0, (1 : Int))]⟩ ()).padding
        ⟨9, fun _ => []⟩ (fun _ => ())).witness.step_instances.length =
      ((TraceContext.new 3).add ⟨7, fun _ => [(Queriable.fixed 0 0, (1 : Int))]⟩
        ()).num_steps ∧
     (((TraceContext.new 3).add ⟨7, fun _ => [(Queriable.fixed 0 0, (1 : Int))]⟩ ()).padding
        ⟨9, fun _ => []⟩ (fun _ => ())).witness.step_instances.take
        ((TraceContext.new 3).add ⟨7, fun _ => [(Queriable.fixed 0 0, (1 : Int))]⟩
          ()).witness.step_instances.length =
      ((TraceContext.new 3).add ⟨7, fun _ => [(Queriable.fixed 0 0, (1 : Int))]⟩
        ()).witness.step_instances) :=
  ⟨by decide,
   padding_fills_to_target _ ⟨9, fun _ => []⟩ (fun _ => ()) (by decide)⟩

/-- C4: when the current row count is at or past the target, `padding`
leaves the context completely unchanged and performs zero `add` calls, so
neither the handler callback nor the args thunk is ever invoked. -/
theorem padding_noop_at_target {F Args : Type} (ctx : TraceContext F)
    (step : StepTypeWGHandler F Args) (args_fn : Unit → Args)
    (h : ctx.num_steps ≤ ctx.witness.step_instances.length) :
    ctx.padding step args_fn = ctx ∧ ctx.paddingCalls step args_fn = 0 := by
  have hz : ctx.num_steps - ctx.witness.step_instances.length = 0 :=
    Nat.sub_eq_zero_of_le h
  constructor
  · simp [TraceContext.padding, hz, paddingGo]
  · simp [TraceContext.paddingCalls, hz, paddingGo]

/-- Witness for C4 at a concrete input: a context with target row count 1
already holding two rows. -/
theorem padding_noop_at_target_witness :
    ((⟨⟨[StepInstance.new 4, StepInstance.new 6]⟩, 1⟩ :
        TraceContext Int).num_steps ≤
      (⟨⟨[StepInstance.new 4, StepInstance.new 6]⟩, 1⟩ :
        TraceContext Int).witness.step_instances.length) ∧
    ((⟨⟨[StepInstance.new 4, StepInstance.new 6]⟩, 1⟩ : TraceContext Int).padding
        (⟨9, fun _ => []⟩ : StepTypeWGHandler Int Unit) (fun _ => ()) =
      (⟨⟨[StepInstance.new 4, StepInstance.new 6]⟩, 1⟩ : TraceContext Int) ∧
     (⟨⟨[StepInstance.new 4, StepInstance.new 6]⟩, 1⟩ : TraceContext Int).paddingCalls
        (⟨9, fun _ => []⟩ : StepTypeWGHandler Int Unit) (fun _ => ()) = 0) :=
  ⟨by decide,
   padding_noop_at_target _ (⟨9, fun _ => []⟩ : StepTypeWGHandler Int Unit)
     (fun _ => ()) (by decide)⟩

/-- C6: on a StepInstance, assigning `v1` then `v2` to the same signal
reference yields the same assignments as assigning only `v2`: keys stay
unique and the last write wins. -/
theorem step_instance_last_write_wins {F : Type} (si : StepInstance F) (k : Queriable)
    (v1 v2 : F) : (si.assign k v1).assign k v2 = si.assign k v2 := by
  simp [StepInstance.assign, hmInsert_hmInsert_self]

/-- C7: in the debug rendering, every row's zero-padding width for the row
index equals `floor(log10(max(assignmentCount, 1))) + 2`, where
`assignmentCount` is that row's number of assignments. -/
theorem display_row_width_formula {F : Type} (w : TraceWitness F) :
    w.rowWidths =
      w.step_instances.map (fun si => Nat.log 10 (max si.assignments.length 1) + 2) := by
  have key : ∀ n : Nat, decimal_width n = Nat.log 10 (max n 1) + 2 := by
    intro n
    by_cases hn : n = 0
    · subst hn
      simp [decimal_width, checked_ilog10, Nat.log_one_right]
    · have : max n 1 = n := by omega
      simp [decimal_width, checked_ilog10, hn, this]
  simp [TraceWitness.rowWidths, key]

/-- C8: target row count 5, one explicit `add` with handler `H1` followed
by `padding` with handler `H2`, on any argument and thunk, gives exactly 5
rows whose step-type identities are `H1.uuid` for row 0 and `H2.uuid` for
rows 1 through 4. -/
theorem scenario_b_identities {F Args : Type} (H1 H2 : StepTypeWGHandler F Args) (a : Args)
    (t : Unit → Args) :
    ((((TraceContext.new 5).add H1 a).padding H2 t).witness.step_instances.length = 5) ∧
    ((((TraceContext.new 5).add H1 a).padding H2 t).witness.step_instances.map
        (fun si => si.step_type_uuid) = H1.uuid :: List.replicate 4 H2.uuid) := by
  have hfuel : (((TraceContext.new 5).add H1 a) :
      TraceContext F).witness.step_instances.length + 4 ≤
      (((TraceContext.new 5).add H1 a) : TraceContext F).num_steps := by
    simp [TraceContext.new, TraceContext.add]
  have hgo := paddingGo_spec H2 t 4 ((TraceContext.new 5).add H1 a) hfuel
  simp [TraceContext.new, TraceContext.add] at hgo
  constructor
  · simp [TraceContext.padding, TraceContext.new, TraceContext.add, hgo]
  · simp [TraceContext.padding, TraceContext.new, TraceContext.add, hgo,
      StepInstance.run_step_type_uuid, List.map_replicate]

/-- C9: cloning a TraceGenerator shares the bound trace function and
copies the target row count, and `generate` on the clone produces the same
witness as `generate` on the original for every argument; each call builds
its own fresh context from `TraceContext.new`. -/
theorem clone_generate_agrees {F Args : Type} (g : TraceGenerator F Args) (a : Args) :
    g.clone.trace = g.trace ∧ g.clone.num_steps = g.num_steps ∧
    g.clone.generate a = g.generate a ∧
    g.clone.generate a = (g.trace (TraceContext.new g.num_steps) a).get_witness :=
  ⟨rfl, rfl, rfl, rfl⟩

/-- C10: `generate` performs no padding of its own: a bound trace function
that makes no `add` or `padding` calls (it returns the context untouched)
yields a witness with zero rows for every target row count, and the
default TraceGenerator yields an empty witness. -/
theorem generate_no_padding {F Args : Type} (n : Nat)
    (tf : TraceContext F → Args → TraceContext F)
    (htf : ∀ ctx args, tf ctx args = ctx) (a a' : Args) :
    (TraceGenerator.new tf n).generate a = { step_instances := [] } ∧
    (TraceGenerator.default F Args).generate a' = { step_instances := [] } := by
  constructor
  · simp [TraceGenerator.generate, TraceGenerator.new, htf, TraceContext.get_witness,
      TraceContext.new]
  · simp [TraceGenerator.generate, TraceGenerator.default, TraceContext.get_witness,
      TraceContext.new]

/-- Witness for C10 at a concrete input: the identity trace function with
target row count 7. -/
theorem generate_no_padding_witness :
    (TraceGenerator.new (fun (c : TraceContext Int) (_ : Unit) => c) 7).generate () =
      { step_instances := [] } ∧
    (TraceGenerator.default Int Unit).generate () = { step_instances := [] } :=
  generate_no_padding 7 (fun c _ => c) (fun _ _ => rfl) () ()

/-- C3: on any well-formed FixedGenContext state (every stored sequence
has length `num_steps`, as `assign` maintains), calling `assign` with a
non-fixed signal reference or an offset at or past the target row count
aborts, and the state carried at the abort is exactly the pre-call state:
nothing was mutated. -/
theorem fixed_assign_abort_no_mutation {F : Type} [Zero F] (ctx : FixedGenContext F)
    (offset : Nat) (lhs : Queriable) (rhs : F)
    (hwf : ∀ p ∈ ctx.assignments, (p.2 : List F).length = ctx.num_steps)
    (hbad : is_fixed_queriable lhs = false ∨ ctx.num_steps ≤ offset) :
    ctx.assign offset lhs rhs = .error ctx := by
  by_cases hfix : is_fixed_queriable lhs = true
  · have hoff : ctx.num_steps ≤ offset := by
      rcases hbad with hb | hb
      · rw [hfix] at hb; cases hb
      · exact hb
    cases hget : hmGet ctx.assignments lhs with
    | some seq =>
        have hlen : seq.length = ctx.num_steps :=
          hwf (lhs, seq) (mem_of_hmGet_eq_some _ _ _ hget)
        have hnl : ¬ offset < seq.length := by omega
        simp [FixedGenContext.assign, hfix, hget, hnl]
    | none =>
        have hnl : ¬ offset < (List.replicate ctx.num_steps (0 : F)).length := by
          simp
          omega
        simp only [FixedGenContext.assign, hfix, not_true_eq_false, if_false, hget]
        simp [hnl]
        omega
  · have hfix' : is_fixed_queriable lhs = false := by
      cases hval : is_fixed_queriable lhs
      · rfl
      · exact absurd hval hfix
    simp [FixedGenContext.assign, hfix']

/-- Witness for C3 at a concrete input: a fresh context with target row
count 3 and an out-of-range offset 5 on a fixed-kind reference. -/
theorem fixed_assign_abort_no_mutation_witness :
    (∀ p ∈ (FixedGenContext.new 3 : FixedGenContext Int).assignments,
        (p.2 : List Int).length = (FixedGenContext.new 3 : FixedGenContext Int).num_steps) ∧
    (is_fixed_queriable (Queriable.fixed 1 0) = false ∨
      (FixedGenContext.new 3 : FixedGenContext Int).num_steps ≤ 5) ∧
    ((FixedGenContext.new 3 : FixedGenContext Int).assign 5 (Queriable.fixed 1 0) 2 =
      .error (FixedGenContext.new 3 : FixedGenContext Int)) :=
  ⟨by decide, by decide,
   fixed_assign_abort_no_mutation (FixedGenContext.new 3) 5 (Queriable.fixed 1 0) 2
     (by decide) (by decide)⟩

/-- C5 counterexample: two signal references of distinct kinds — `Fixed`
and `Halo2FixedQuery` — both make `FixedGenContext.assign` proceed, so it
is not the case that exactly one kind is treated as a fixed column. -/
theorem fixed_single_kind_counterexample :
    ((FixedGenContext.new 1 : FixedGenContext Int).assign 0 (Queriable.fixed 0 0) 5 =
      .ok { assignments := [(Queriable.fixed 0 0, [5])], num_steps := 1 }) ∧
    ((FixedGenContext.new 1 : FixedGenContext Int).assign 0 (Queriable.halo2FixedQuery 0 0) 5 =
      .ok { assignments := [(Queriable.halo2FixedQuery 0 0, [5])], num_steps := 1 }) ∧
    (Queriable.fixed 0 0).kind ≠ (Queriable.halo2FixedQuery 0 0).kind ∧
    ¬ ∃! k : QueriableKind, ∀ q : Queriable,
        (∃ r, (FixedGenContext.new 1 : FixedGenContext Int).assign 0 q 5 = .ok r) ↔
          q.kind = k := by
  refine ⟨rfl, rfl, by decide, ?_⟩
  rintro ⟨k, hk, -⟩
  have h1 : (Queriable.fixed 0 0).kind = k :=
    (hk (Queriable.fixed 0 0)).mp ⟨_, rfl⟩
  have h2 : (Queriable.halo2FixedQuery 0 0).kind = k :=
    (hk (Queriable.halo2FixedQuery 0 0)).mp ⟨_, rfl⟩
  rw [Queriable.kind] at h1
  rw [Queriable.kind] at h2
  rw [← h2] at h1
  cases h1

/-- C5 amended: exactly two kind values — `fixed` and `halo2Fixed` — are
treated as fixed columns: `assign` proceeds for a reference of either of
those kinds (with an in-range offset) and aborts for a reference of every
other kind. -/
theorem fixed_kind_exactly_two {F : Type} [Zero F] (q : Queriable) (n : Nat) (v : F)
    (h : 0 < n) :
    (is_fixed_queriable q = true ↔
      (q.kind = QueriableKind.fixed ∨ q.kind = QueriableKind.halo2Fixed)) ∧
    ((∃ r, (FixedGenContext.new n : FixedGenContext F).assign 0 q v = .ok r) ↔
      (q.kind = QueriableKind.fixed ∨ q.kind = QueriableKind.halo2Fixed)) := by
  cases q <;>
    simp [is_fixed_queriable, Queriable.kind, FixedGenContext.assign, FixedGenContext.new,
      hmGet, hmInsert, h]

/-- Witness for C5's amended theorem at a concrete input: a non-fixed
(internal) reference with target row count 2. -/
theorem fixed_kind_exactly_two_witness :
    (0 < 2) ∧
    ((is_fixed_queriable (Queriable.internal 3) = true ↔
        ((Queriable.internal 3).kind = QueriableKind.fixed ∨
          (Queriable.internal 3).kind = QueriableKind.halo2Fixed)) ∧
     ((∃ r, (FixedGenContext.new 2 : FixedGenContext Int).assign 0 (Queriable.internal 3)
          7 = .ok r) ↔
       ((Queriable.internal 3).kind = QueriableKind.fixed ∨
         (Queriable.internal 3).kind = QueriableKind.halo2Fixed))) :=
  ⟨by decide, fixed_kind_exactly_two (Queriable.internal 3) 2 7 (by decide)⟩

/-- The invariant relating a FixedGenContext state to the `assign` calls
performed so far: `num_steps` is unchanged, every touched key holds a
sequence of length `num_steps` whose entries are the last value written at
each offset (zero where never written), and untouched keys are absent. -/
def FixedInv {F : Type} [Zero F] (n : Nat) (done : List (Nat × Queriable × F))
    (ctx : FixedGenContext F) : Prop :=
  ctx.num_steps = n ∧
  ∀ q : Queriable,
    (touched done q = true →
      ∃ seq, hmGet ctx.assignments q = some seq ∧ seq.length = n ∧
        ∀ o, o < n → seq.getD o 0 = (lastAssigned done q o).getD 0) ∧
    (touched done q = false → hmGet ctx.assignments q = none)

theorem touched_append_single {F : Type} (done : List (Nat × Queriable × F)) (o : Nat)
    (q qq : Queriable) (v : F) :
    touched (done ++ [(o, q, v)]) qq = (touched done qq || decide (q = qq)) := by
  simp [touched]

theorem lastAssigned_append_single {F : Type} (done : List (Nat × Queriable × F))
    (o oo : Nat) (q qq : Queriable) (v : F) :
    lastAssigned (done ++ [(o, q, v)]) qq oo =
      if q = qq ∧ o = oo then some v else lastAssigned done qq oo := by
  simp [lastAssigned, List.foldl_append]

theorem foldl_lastWrite_const {F : Type} (q : Queriable) (o : Nat) :
    ∀ (l : List (Nat × Queriable × F)) (acc : Option F),
      (∀ x ∈ l, ¬ x.2.1 = q) →
      l.foldl (fun acc op => if op.2.1 = q ∧ op.1 = o then some op.2.2 else acc) acc =
        acc := by
  intro l
  induction l with
  | nil => intro acc _; rfl
  | cons x rest ih =>
      intro acc hall
      have hx : ¬ x.2.1 = q := hall x (List.mem_cons_self _ _)
      have hrest : ∀ y ∈ rest, ¬ y.2.1 = q :=
        fun y hy => hall y (List.mem_cons_of_mem _ hy)
      simp only [List.foldl_cons]
      rw [if_neg (by simp [hx])]
      exact ih acc hrest

theorem lastAssigned_of_not_touched {F : Type} (done : List (Nat × Queriable × F))
    (q : Queriable) (o : Nat) (h : touched done q = false) :
    lastAssigned done q o = none := by
  have hall : ∀ x ∈ done, ¬ x.2.1 = q := by
    simpa [touched] using h
  exact foldl_lastWrite_const q o done none hall

theorem getD_replicate_zero {F : Type} [Zero F] (n o : Nat) :
    (List.replicate n (0 : F)).getD o 0 = 0 := by
  by_cases h : o < n
  · simp [List.getD_eq_getElem?_getD, List.getElem?_replicate, h]
  · simp [List.getD_eq_getElem?_getD, List.getElem?_replicate, h]

theorem assign_step_inv {F : Type} [Zero F] (n : Nat) (done : List (Nat × Queriable × F))
    (ctx : FixedGenContext F) (o : Nat) (q : Queriable) (v : F)
    (hinv : FixedInv n done ctx) (hfix : is_fixed_queriable q = true) (hlt : o < n) :
    ∃ ctx1, ctx.assign o q v = .ok ctx1 ∧ FixedInv n (done ++ [(o, q, v)]) ctx1 := by
  obtain ⟨hn, hq⟩ := hinv
  cases hget : hmGet ctx.assignments q with
  | some seq =>
      have htq : touched done q = true := by
        cases htv : touched done q
        · have hnone := (hq q).2 htv
          rw [hget] at hnone
          cases hnone
        · rfl
      obtain ⟨seq2, hget2, hlen2, hvals2⟩ := (hq q).1 htq
      rw [hget] at hget2
      injection hget2 with hseq
      subst hseq
      have hov : o < seq.length := by omega
      refine ⟨{ ctx with assignments := hmInsert ctx.assignments q (seq.set o v) },
        by simp [FixedGenContext.assign, hfix, hget, hov], by simpa using hn, ?_⟩
      intro qq
      by_cases hqq : q = qq
      · subst hqq
        constructor
        · intro _
          refine ⟨seq.set o v, hmGet_hmInsert_self _ _ _, by simpa using hlen2, ?_⟩
          intro oo hoo
          rw [lastAssigned_append_single]
          by_cases ho : o = oo
          · subst ho
            simp [List.getD_eq_getElem?_getD, List.getElem?_set_eq_of_lt, hov]
          · rw [if_neg (by simp [ho])]
            rw [List.getD_eq_getElem?_getD, List.getElem?_set_ne ho,
              ← List.getD_eq_getElem?_getD]
            exact hvals2 oo hoo
        · intro hfalse
          rw [touched_append_single] at hfalse
          simp at hfalse
      · constructor
        · intro htrue
          rw [touched_append_single] at htrue
          have htdone : touched done qq = true := by
            simpa [hqq] using htrue
          obtain ⟨s, hs, hslen, hsvals⟩ := (hq qq).1 htdone
          refine ⟨s, ?_, hslen, ?_⟩
          · rw [hmGet_hmInsert_ne _ _ _ _ hqq]
            exact hs
          · intro oo hoo
            rw [lastAssigned_append_single, if_neg (by simp [hqq])]
            exact hsvals oo hoo
        · intro hfalse
          rw [touched_append_single] at hfalse
          have htdone : touched done qq = false :=
            (Bool.or_eq_false_iff.mp hfalse).1
          rw [hmGet_hmInsert_ne _ _ _ _ hqq]
          exact (hq qq).2 htdone
  | none =>
      have htq : touched done q = false := by
        cases htv : touched done q
        · rfl
        · obtain ⟨s, hs, -, -⟩ := (hq q).1 htv
          rw [hget] at hs
          cases hs
      have hov : o < (List.replicate ctx.num_steps (0 : F)).length := by
        simp
        omega
      refine ⟨{ ctx with
          assignments := hmInsert ctx.assignments q ((List.replicate n (0 : F)).set o v) },
        by simp [FixedGenContext.assign, hfix, hget, hov, hn, hlt], by simpa using hn, ?_⟩
      intro qq
      by_cases hqq : q = qq
      · subst hqq
        constructor
        · intro _
          refine ⟨(List.replicate n (0 : F)).set o v, hmGet_hmInsert_self _ _ _,
            by simp, ?_⟩
          intro oo hoo
          rw [lastAssigned_append_single]
          by_cases ho : o = oo
          · subst ho
            have hol : o < (List.replicate n (0 : F)).length := by simpa using hlt
            rw [List.getD_eq_getElem?_getD, List.getElem?_set_eq_of_lt v hol]
            simp
          · rw [if_neg (by simp [ho])]
            rw [List.getD_eq_getElem?_getD, List.getElem?_set_ne ho,
              ← List.getD_eq_getElem?_getD]
            rw [lastAssigned_of_not_touched done q oo htq, getD_replicate_zero n oo]
            rfl
        · intro hfalse
          rw [touched_append_single] at hfalse
          simp at hfalse
      · constructor
        · intro htrue
          rw [touched_append_single] at htrue
          have htdone : touched done qq = true := by
            simpa [hqq] using htrue
          obtain ⟨s, hs, hslen, hsvals⟩ := (hq qq).1 htdone
          refine ⟨s, ?_, hslen, ?_⟩
          · rw [hmGet_hmInsert_ne _ _ _ _ hqq]
            exact hs
          · intro oo hoo
            rw [lastAssigned_append_single, if_neg (by simp [hqq])]
            exact hsvals oo hoo
        · intro hfalse
          rw [touched_append_single] at hfalse
          have htdone : touched done qq = false :=
            (Bool.or_eq_false_iff.mp hfalse).1
          rw [hmGet_hmInsert_ne _ _ _ _ hqq]
          exact (hq qq).2 htdone

theorem runAssigns_inv {F : Type} [Zero F] (n : Nat) (rest : List (Nat × Queriable × F)) :
    ∀ (done : List (Nat × Queriable × F)) (ctx : FixedGenContext F),
      FixedInv n done ctx →
      (∀ op ∈ rest, is_fixed_queriable op.2.1 = true ∧ op.1 < n) →
      ∃ ctx1, runAssigns ctx rest = .ok ctx1 ∧ FixedInv n (done ++ rest) ctx1 := by
  induction rest with
  | nil =>
      intro done ctx hinv _
      exact ⟨ctx, rfl, by simpa using hinv⟩
  | cons op rest ih =>
      obtain ⟨o, q, v⟩ := op
      intro done ctx hinv hops
      obtain ⟨hfix, hlt⟩ := hops (o, q, v) (List.mem_cons_self _ _)
      obtain ⟨ctx1, hstep, hinv1⟩ := assign_step_inv n done ctx o q v hinv hfix hlt
      obtain ⟨ctx2, hrun, hinv2⟩ := ih (done ++ [(o, q, v)]) ctx1 hinv1
        (fun op hop => hops op (List.mem_cons_of_mem _ hop))
      refine ⟨ctx2, ?_, ?_⟩
      · simp [runAssigns, hstep, hrun]
      · rw [List.append_assoc] at hinv2
        simpa using hinv2

/-- C2: for every sequence of `FixedGenContext.assign(offset, q, v)` calls
with fixed-kind keys and in-range offsets starting from a fresh context,
every call succeeds and the mapping returned by `get_assignments` maps
every touched key to a sequence of length exactly the target row count in
which each explicitly assigned offset holds the value of the last assign
at that offset and every never-assigned position holds the zero field
value. -/
theorem fixed_assign_semantics {F : Type} [Zero F] (n : Nat)
    (ops : List (Nat × Queriable × F))
    (hops : ∀ op ∈ ops, is_fixed_queriable op.2.1 = true ∧ op.1 < n) :
    ∃ ctx1, runAssigns (FixedGenContext.new n) ops = .ok ctx1 ∧
      ∀ q : Queriable, touched ops q = true →
        ∃ seq, hmGet ctx1.get_assignments q = some seq ∧ seq.length = n ∧
          ∀ o, o < n → seq.getD o 0 = (lastAssigned ops q o).getD 0 := by
  have hinv0 : FixedInv n [] (FixedGenContext.new n : FixedGenContext F) := by
    refine ⟨rfl, ?_⟩
    intro q
    constructor
    · intro h
      simp [touched] at h
    · intro _
      rfl
  obtain ⟨ctx1, hrun, hinv1⟩ := runAssigns_inv n ops [] (FixedGenContext.new n) hinv0 hops
  refine ⟨ctx1, hrun, ?_⟩
  intro q htq
  have := (hinv1.2 q).1 (by simpa using htq)
  simpa [FixedGenContext.get_assignments] using this

/-- Witness for C2 at a concrete input: three in-range fixed-kind assigns,
two of them to the same key and offset. -/
theorem fixed_assign_semantics_witness :
    (∀ op ∈ [((0 : Nat), (Queriable.fixed 1 0, (5 : Int))),
             ((0 : Nat), (Queriable.fixed 1 0, (7 : Int))),
             ((2 : Nat), (Queriable.halo2FixedQuery 2 0, (9 : Int)))],
        is_fixed_queriable op.2.1 = true ∧ op.1 < 3) ∧
    (∃ ctx1, runAssigns (FixedGenContext.new 3)
        [((0 : Nat), (Queriable.fixed 1 0, (5 : Int))),
         ((0 : Nat), (Queriable.fixed 1 0, (7 : Int))),
         ((2 : Nat), (Queriable.halo2FixedQuery 2 0, (9 : Int)))] = .ok ctx1 ∧
      ∀ q : Queriable, touched [((0 : Nat), (Queriable.fixed 1 0, (5 : Int))),
             ((0 : Nat), (Queriable.fixed 1 0, (7 : Int))),
             ((2 : Nat), (Queriable.halo2FixedQuery 2 0, (9 : Int)))] q = true →
        ∃ seq, hmGet ctx1.get_assignments q = some seq ∧ seq.length = 3 ∧
          ∀ o, o < 3 → seq.getD o 0 =
            (lastAssigned [((0 : Nat), (Queriable.fixed 1 0, (5 : Int))),
               ((0 : Nat), (Queriable.fixed 1 0, (7 : Int))),
               ((2 : Nat), (Queriable.halo2FixedQuery 2 0, (9 : Int)))] q o).getD 0) :=
  ⟨by decide, fixed_assign_semantics 3 _ (by decide)⟩

end WitGen
